import Mathlib

/-!
# Verification of `latexd.py`

A shallow embedding of the latexd build orchestrator (`src/latexd.py`):
a wrapper around `latexmk` that assembles a scratch build directory from a
main `.tex` file plus supporting directories, runs the compiler, copies the
produced PDF back, and removes the scratch directory.

Modelling conventions:
* Paths and filenames are `String`s.  All `pathlib` name manipulations used
  by the code (`Path.suffix`, `Path.stem`, `Path.with_suffix`, `str.rstrip`,
  `str.rsplit`) are translated character-for-character over `List Char`.
* The filesystem is an explicit parameter: an existence oracle
  `String → Bool` for input resolution, a directory-listing model (`SDir`)
  for the build-directory assembler, and an `FsModel` record (expansion,
  `isdir`, `os.walk`, `resolve`) for `parse_paths`.
* The external `latexmk` subprocess is opaque: its outcome (success with
  captured streams, non-zero exit, or timeout) is an exogenous `RunOutcome`
  input, exactly as the spec scopes it.
* Printed diagnostics are returned as explicit lists of messages / `Warning`
  values instead of being written to stdout.
* Supporting directories are modelled with regular-file entries (the
  intended `.sty`/`.bib`/image contents); a real directory cannot contain
  two entries of the same name, which is the `Nodup` well-formedness
  hypothesis used below.
-/

deriving instance DecidableEq for Except

namespace Latexd

/-- Split a character list at its **last** `'.'`: returns
`some (pre, suf)` with `s = pre ++ '.' :: suf` and no `'.'` in `suf`,
or `none` when the list has no dot.  This is the common core of Python's
`str.rfind('.')`-based operations used by `latexd.py`. -/
def splitLastDot : List Char → Option (List Char × List Char)
  | [] => none
  | c :: cs =>
    match splitLastDot cs with
    | some (pre, suf) => some (c :: pre, suf)
    | none => if c = '.' then some ([], cs) else none

/-- `pathlib.PurePath.suffix` on a file name: the final component from the
last dot, except that a leading dot (hidden file) or a trailing dot yields
the empty suffix (`0 < i < len-1` in CPython's implementation). -/
def pySuffixL (s : List Char) : List Char :=
  match splitLastDot s with
  | some (pre, suf) => if pre ≠ [] ∧ suf ≠ [] then '.' :: suf else []
  | none => []

/-- `pathlib.PurePath.stem` on a file name: the name without its
`pySuffixL` suffix. -/
def pyStemL (s : List Char) : List Char :=
  match splitLastDot s with
  | some (pre, suf) => if pre ≠ [] ∧ suf ≠ [] then pre else s
  | none => s

/-- Python `s.rsplit(".", 1)[0]`: everything before the last dot, or the
whole string when there is no dot.  Used by `compile_document` (line 168)
to build the `-jobname`. -/
def rsplitStemL (s : List Char) : List Char :=
  match splitLastDot s with
  | some (pre, _) => pre
  | none => s

/-- `Path(name).suffix` as a `String` function. -/
def pySuffix (s : String) : String := ⟨pySuffixL s.data⟩

/-- `Path(name).stem` as a `String` function. -/
def pyStem (s : String) : String := ⟨pyStemL s.data⟩

/-- `name.rsplit(".", 1)[0]` as a `String` function. -/
def rsplitStem (s : String) : String := ⟨rsplitStemL s.data⟩

/-- `Path(name).with_suffix(suf)`: the stem with the new suffix appended
(CPython strips the old suffix, if any, and concatenates). -/
def withSuffix (s suf : String) : String := pyStem s ++ suf

/-- Python `name.endswith('.')`. -/
def endsWithDot (s : String) : Bool :=
  match s.data.getLast? with
  | some c => c = '.'
  | none => false

/-- Python `name.rstrip('.')`: drop every trailing dot. -/
def rstripDots (s : String) : String :=
  ⟨(s.data.reverse.dropWhile (· = '.')).reverse⟩

/-- `os.path.join(root, name)` / `pathlib`'s `dir / name` for a simple
final component: insert a separator unless `root` is empty or already ends
with one. -/
def joinPath (root name : String) : String :=
  if root = "" || (match root.data.getLast? with | some c => c = '/' | none => false)
  then root ++ name else root ++ "/" ++ name

/-- Python `s.split(':')`: split at every colon, keeping empty pieces. -/
def splitColon : List Char → List (List Char)
  | [] => [[]]
  | c :: cs =>
    match splitColon cs with
    | [] => [[]]
    | h :: t => if c = ':' then [] :: h :: t else (c :: h) :: t

/-- Python `'//' in s`. -/
def hasDblSlash : List Char → Bool
  | '/' :: '/' :: _ => true
  | _ :: cs => hasDblSlash cs
  | [] => false

/-- Python `s.split('//')[0]`: the part before the first `//`. -/
def beforeDblSlash : List Char → List Char
  | '/' :: '/' :: _ => []
  | c :: cs => c :: beforeDblSlash cs
  | [] => []

/--
Input resolution of `run_latex_build` (`latexd.py` lines 228-243), over the
final name component of the document path (the directory component is fixed
by `Path.resolve` and never altered by these steps; `ex` is the existence
oracle for names in that directory):
1. if the name does not exist and ends with `'.'`, strip the trailing dots
   (`with_name(name.rstrip('.'))`);
2. if it still does not exist and its suffix is not `".tex"`, apply
   `with_suffix(".tex")` (the code's `if candidate.exists()` branch assigns
   `candidate` on both arms, so it is an unconditional assignment);
3. if the result does not exist or its suffix is not `".tex"`, raise
   `ValueError("Input must be a .tex file")`.
(`with_name("")` would raise in Python when a name consists only of dots;
here the empty name simply fails the final existence check — a fatal error
before any filesystem effect in both cases.)

`resolveStep3` is step 3 (lines 242-243), factored out: accept the candidate
exactly when it exists and carries the `.tex` suffix. -/
def resolveStep3 (ex : String → Bool) (p2 : String) : Except String String :=
  if !ex p2 || !(pySuffix p2 == ".tex") then
    Except.error "Input must be a .tex file"
  else
    Except.ok p2

def resolveInput (ex : String → Bool) (name : String) : Except String String :=
  let p1 := if !ex name && endsWithDot name then rstripDots name else name
  let p2 := if !ex p1 && !(pySuffix p1 == ".tex") then withSuffix p1 ".tex" else p1
  resolveStep3 ex p2

/-!
## Path Expander (`parse_paths`, lines 24-71)
-/

/-- The filesystem facilities `parse_paths` consults, as an explicit model:
`expand` is `os.path.expandvars` followed by `os.path.expanduser`;
`isdir` is `os.path.isdir`; `walkList` returns the `(root, dirs)` pairs
produced by `os.walk` in traversal order (files are never used by the
code); `resolve` is `Path(p).resolve()` (absolute, symlink-normalized). -/
structure FsModel where
  expand : String → String
  isdir : String → Bool
  walkList : String → List (String × List String)
  resolve : String → String

/-- The contribution of one colon-separated fragment (`latexd.py` lines
46-69).  After expansion, a fragment containing the recursive marker `//`
is split at the marker; if the part before the marker is a directory, every
subdirectory reached by `os.walk` is appended as `os.path.join(root, d)`
(NOT resolved) followed by the resolved base; otherwise the fragment
contributes nothing.  A fragment without the marker contributes its
resolved expansion when it is a directory, and nothing otherwise. -/
def fragContrib (fs : FsModel) (p : String) : List String :=
  let ep := fs.expand p
  if hasDblSlash ep.data then
    let base : String := ⟨beforeDblSlash ep.data⟩
    if fs.isdir base then
      ((fs.walkList base).foldl (fun a rd => a ++ rd.2.map (fun d => joinPath rd.1 d)) [])
        ++ [fs.resolve base]
    else []
  else if fs.isdir ep then [fs.resolve ep] else []

/-- `parse_paths` (`latexd.py` lines 24-71): split the input on `:`, drop
empty fragments, and accumulate each fragment's contribution in order. -/
def parse_paths (fs : FsModel) (pathString : String) : List String :=
  if pathString = "" then []
  else
    (((splitColon pathString.data).map (fun l => (⟨l⟩ : String))).filter
        (fun p => p ≠ "")).foldl
      (fun acc p => acc ++ fragContrib fs p) []

/-!
## Effective supporting-directory set (`run_latex_build`, lines 245-257)
-/

/-- A Python value denoting a directory, **with its runtime type**.
`parse_paths` produces a mixed-type list: recursively walked subdirectories
are plain `str` (the bare `os.path.join` at line 63) while resolved bases
and plain fragments are `pathlib.Path` objects (lines 65 and 69); the
explicit extras and the document's directory in `run_latex_build` are
`Path` objects (lines 245-249).  Python's `==` — hence the `in` test at
line 256 — never identifies a `str` with a `Path` (`Path.__eq__` returns
`NotImplemented` for a `str`, and `str.__eq__` likewise, so `in` falls back
to `False`), and compares two values of the same type by their (normalized)
text.  Structural equality on this type is therefore exactly Python's
`==` on the values `run_latex_build` handles. -/
inductive PyVal where
  | pstr (s : String)
  | ppath (s : String)
  deriving DecidableEq, Repr

/-- The directory path on disk that a value denotes, forgetting its Python
type (`str(v)` up to `Path`'s trailing-separator normalization). -/
def PyVal.str : PyVal → String
  | PyVal.pstr s => s
  | PyVal.ppath s => s

/-- One step of the `TEXDINPUTS` append loop (lines 255-257): append the
value unless an `==`-equal value is already present in the (growing)
list. -/
def appendUnique {α : Type} [DecidableEq α] (acc : List α) (d : α) : List α :=
  if d ∈ acc then acc else acc ++ [d]

/-- The effective extras-directory list assembled by `run_latex_build`
(lines 245-257): the explicit directories (resolved `Path` objects) with
the document's own directory (a resolved `Path`) inserted first when not
already present, then each `TEXDINPUTS` value — a `Path` or, for walked
subdirectories, a bare `str` — appended when no `==`-equal value is
already in the list.  Because `==` never crosses the `str`/`Path` divide,
a `str` entry is deduplicated only against earlier `str` entries, never
against a `Path` naming the same directory. -/
def effectiveExtras (explicitDirs : List String) (texDir : String)
    (texdinputsDirs : List PyVal) : List PyVal :=
  let explicitP := explicitDirs.map PyVal.ppath
  let base := if PyVal.ppath texDir ∈ explicitP then explicitP
              else PyVal.ppath texDir :: explicitP
  texdinputsDirs.foldl appendUnique base

/-!
## Build-Directory Assembler (`prepare_build_directory`, lines 107-153)
-/

/-- How a name was placed into the scratch directory: `os.symlink` target
or `shutil.copy2` source. -/
inductive Placed where
  | link (target : String)
  | copy (target : String)
  deriving DecidableEq, Repr

/-- A diagnostic printed by `prepare_build_directory`: a skipped
non-directory extras path (line 132), or the post-loop duplicate-filename
report (lines 148-151) carrying the recorded source directories. -/
inductive Warning where
  | skipDir (path : String)
  | duplicate (filename : String) (sources : List String)
  deriving DecidableEq, Repr

/-- A supporting directory as the assembler sees it: its path, whether
`Path.is_dir()` holds at call time, and its immediate entry names in
`glob("*")` enumeration order. -/
structure SDir where
  path : String
  isDir : Bool
  entries : List String
  deriving DecidableEq, Repr

/-- Whether directory `d` exists and contains an entry named `n`. -/
def dirHas (n : String) (d : SDir) : Bool := d.isDir && d.entries.contains n

/-- The assembler's mutable state: the scratch directory contents (an
ordered name → placement association, append-only), the
`filenames_seen` dictionary (insertion-ordered, as Python dicts are), and
the warnings printed so far. -/
structure BState where
  scratch : List (String × Placed)
  seen : List (String × List String)
  warns : List Warning
  deriving DecidableEq, Repr

/-- First-match association-list lookup (the scratch directory can hold at
most one entry per name, and Python dict lookup for `filenames_seen`). -/
def alookup {α : Type} : List (String × α) → String → Option α
  | [], _ => none
  | (m, v) :: rest, n => if m = n then some v else alookup rest n

/-- `shutil.copy2` vs `os.symlink`, per the `copy_extras` boolean
(lines 142-145). -/
def placeFile (copyExtras : Bool) (target : String) : Placed :=
  if copyExtras then Placed.copy target else Placed.link target

/-- `filenames_seen[name].append(path)` on a `defaultdict(list)`: update
the existing key in place, or append a fresh singleton entry. -/
def addSeen : List (String × List String) → String → String → List (String × List String)
  | [], n, p => [(n, [p])]
  | (m, ps) :: rest, n, p =>
    if m = n then (m, ps ++ [p]) :: rest else (m, ps) :: addSeen rest n p

/-- The body of the inner entry loop (lines 134-145): skip an entry named
like the main document; if the destination already exists record the
offending directory in `filenames_seen`; otherwise place the entry (copy or
link) under its own name.  (`dest.exists()` holds exactly when the name was
placed before: every placed link targets a file that existed at placement
time.) -/
def processEntry (texName : String) (copyExtras : Bool) (dpath : String)
    (st : BState) (fname : String) : BState :=
  if fname = texName then st
  else if (alookup st.scratch fname).isSome then
    { st with seen := addSeen st.seen fname dpath }
  else
    { st with
        scratch := st.scratch ++ [(fname, placeFile copyExtras (joinPath dpath fname))] }

/-- The body of the outer directory loop (lines 130-145): warn and skip a
path that is not a directory, otherwise process its entries in order. -/
def processDir (texName : String) (copyExtras : Bool) (st : BState) (d : SDir) : BState :=
  if d.isDir then d.entries.foldl (processEntry texName copyExtras d.path) st
  else { st with warns := st.warns ++ [Warning.skipDir d.path] }

/-- `prepare_build_directory` (`latexd.py` lines 107-153): symlink the main
document first (line 127, unconditionally a symlink), process every extras
directory in order, then emit one duplicate warning per recorded colliding
filename, in recording order. -/
def prepare_build_directory (texPath texName : String) (extrasDirs : List SDir)
    (copyExtras : Bool) : BState :=
  let st0 : BState := ⟨[(texName, Placed.link texPath)], [], []⟩
  let st1 := extrasDirs.foldl (processDir texName copyExtras) st0
  { st1 with warns := st1.warns ++ st1.seen.map (fun fs => Warning.duplicate fs.1 fs.2) }

/-!
## Compiler Invoker (`compile_document`, lines 155-195)
-/

/-- The captured result of a successful subprocess run
(`subprocess.CompletedProcess` with `capture_output=True, text=True`). -/
structure CompletedProcess where
  stdout : String
  stderr : String
  deriving DecidableEq, Repr

/-- The outcome of the opaque external `latexmk` subprocess: normal exit 0
with captured streams, non-zero exit (`CalledProcessError`, carrying the
captured streams), or expiry of the timeout (`TimeoutExpired`). -/
inductive RunOutcome where
  | completed (stdout stderr : String)
  | failed (stdout stderr : String)
  | timedOut
  deriving DecidableEq, Repr

/-- The `-jobname` configured by `compile_document` (line 168):
`tex_filename.rsplit(".", 1)[0] + "_build"`. -/
def jobname (texFilename : String) : String := rsplitStem texFilename ++ "_build"

/-- The `latexmk` command line (lines 169-175): forced PDF output,
the job name, halt-on-error, non-interactive mode, then the passthrough
arguments, then the source filename. -/
def latexmkCmd (texFilename : String) (latexmkArgs : List String) : List String :=
  ["latexmk", "-pdf", "-jobname=" ++ jobname texFilename,
    "-halt-on-error", "-interaction=nonstopmode"] ++ latexmkArgs ++ [texFilename]

/-- The observable behaviour of one `compile_document` call: the command
line handed to `subprocess.run`, the returned value, and the messages
printed. -/
structure CompileCall where
  cmd : List String
  result : Option CompletedProcess
  messages : List String
  deriving DecidableEq, Repr

/-- `compile_document` (lines 155-195): invokes `latexmkCmd` in the build
directory.  On timeout it prints the timeout notice and returns `None`; on
non-zero exit it prints the failure banner and the captured stdout and
stderr verbatim and returns `None`; on success it returns the captured
result and prints nothing. -/
def compile_document (texFilename : String) (latexmkArgs : List String)
    (outcome : RunOutcome) : CompileCall :=
  { cmd := latexmkCmd texFilename latexmkArgs,
    result :=
      match outcome with
      | RunOutcome.completed so se => some ⟨so, se⟩
      | RunOutcome.timedOut => none
      | RunOutcome.failed _ _ => none,
    messages :=
      match outcome with
      | RunOutcome.completed _ _ => []
      | RunOutcome.timedOut => ["LaTeX compilation timed out."]
      | RunOutcome.failed so se =>
        ["LaTeX compilation failed.", "----- STDOUT -----", so,
         "----- STDERR -----", se] }

/-!
## Output Relocator (`post_process_pdf`, lines 197-215)
-/

/-- The artifact name `post_process_pdf` expects in the scratch directory
(line 208): `f"{tex_path.stem}_build.pdf"`. -/
def artifactName (texName : String) : String := pyStem texName ++ "_build.pdf"

/-- `shutil.copy2(src, dst)` on a file map: overwrite the destination name
if present, append it otherwise. -/
def setFile : List (String × String) → String → String → List (String × String)
  | [], n, c => [(n, c)]
  | (m, v) :: rest, n, c =>
    if m = n then (m, c) :: rest else (m, v) :: setFile rest n c

/-- `post_process_pdf` (lines 197-215) over explicit file maps
(name → content) for the scratch directory and the source document's
directory: if the expected artifact exists it is copied (overwriting any
existing destination file, with no check and no message) to the source's
name with suffix `.pdf`, and that destination is returned; otherwise a
"PDF not generated." message is printed and no path is returned. -/
def post_process_pdf (buildFiles : List (String × String)) (texName : String)
    (destFs : List (String × String)) :
    Option String × List (String × String) × List String :=
  let outputPdf := artifactName texName
  let finalOutput := withSuffix texName ".pdf"
  match alookup buildFiles outputPdf with
  | some content => (some finalOutput, setFile destFs finalOutput content, [])
  | none => (none, destFs, ["PDF not generated."])

/-!
## Orchestrator (`run_latex_build`, lines 217-277)
-/

/-- How one invocation of `run_latex_build` ends. -/
inductive RunExit where
  | inputError (msg : String)
  | compileFailed
  | doneSuccess (pdf : String)
  | doneNoPdf
  deriving DecidableEq, Repr

/-- The observable filesystem trace of one invocation: how it exited,
whether the scratch directory was created (`tempfile.mkdtemp`, via
`prepare_build_directory`), and whether `shutil.rmtree` removed it before
returning. -/
structure RunTrace where
  exit : RunExit
  scratchCreated : Bool
  scratchRemoved : Bool
  deriving DecidableEq, Repr

/-- `run_latex_build` (`latexd.py` lines 217-277).  Exogenous inputs: the
existence oracle `ex` for names next to the document, the resolved document
path/directory, the explicit extras list, the parsed `TEXDINPUTS`
directories, a directory oracle giving `is_dir()` and the entry listing for
each extras path, the subprocess outcome, and whether the compiler left the
expected artifact in the scratch directory.  Returns the trace, the
assembled build state, and the printed messages.  Translated control flow:
a resolution failure raises before anything is created; when
`compile_document` returns `None` the function returns at line 265
**without** reaching the `shutil.rmtree` cleanup at line 277; otherwise
`post_process_pdf` runs and the cleanup at line 277 executes. -/
def run_latex_build (ex : String → Bool) (tex : String) (texPath : String)
    (explicitExtras : List String) (texDir : String) (texdinputsDirs : List PyVal)
    (dirOracle : String → Bool × List String) (copyExtras : Bool)
    (latexmkArgs : List String) (outcome : RunOutcome) (artifactPresent : Bool) :
    RunTrace × BState × List String :=
  match resolveInput ex tex with
  | Except.error e => (⟨RunExit.inputError e, false, false⟩, ⟨[], [], []⟩, [])
  | Except.ok texName =>
    let dirs := (effectiveExtras explicitExtras texDir texdinputsDirs).map
      (fun p => SDir.mk p.str (dirOracle p.str).1 (dirOracle p.str).2)
    let build := prepare_build_directory texPath texName dirs copyExtras
    let call := compile_document texName latexmkArgs outcome
    let msgs := call.messages
    match call.result with
    | none => (⟨RunExit.compileFailed, true, false⟩, build, msgs)
    | some _ =>
      let compilerOut : List (String × String) :=
        if artifactPresent then [(artifactName texName, "%PDF")] else []
      let pp := post_process_pdf compilerOut texName []
      match pp.1 with
      | some p => (⟨RunExit.doneSuccess p, true, true⟩, build, msgs ++ pp.2.2)
      | none => (⟨RunExit.doneNoPdf, true, true⟩, build, msgs ++ pp.2.2)

/-!
## Auxiliary notions used by the statements
-/

/-- The `filenames_seen` record for one filename after a run of collisions:
`cur` is the recorded list so far (if any) and `adds` the colliding
directories encountered next, in order. -/
def seenAfter (cur : Option (List String)) (adds : List String) : Option (List String) :=
  match cur with
  | some ps => some (ps ++ adds)
  | none => if adds = [] then none else some adds

/-- Whether a warning is the duplicate-filename report for `n`. -/
def isDupFor (n : String) : Warning → Bool
  | Warning.duplicate m _ => m == n
  | _ => false

/-!
## Concrete fixtures for counterexamples and witnesses
-/

/-- A directory holding exactly `paper.txt.tex`. -/
def exPaperTxtTex (s : String) : Bool := s == "paper.txt.tex"

/-- A directory holding exactly `notes.tex`. -/
def exNotesTex (s : String) : Bool := s == "notes.tex"

/-- A directory holding exactly `paper.tex`. -/
def exPaperTex (s : String) : Bool := s == "paper.tex"

/-- A directory oracle for the single extras directory `/w`, which holds
the document `paper.tex`. -/
def oracleW (p : String) : Bool × List String :=
  if p = "/w" then (true, ["paper.tex"]) else (false, [])

/-- `os.path.isdir` on a filesystem whose current working directory is
`/abs` and which holds a directory `rel` with one subdirectory `s`:
both the relative and the absolute spellings name existing directories. -/
def fsCEisdir (p : String) : Bool :=
  p == "rel" || p == "rel/s" || p == "/abs/rel" || p == "/abs/rel/s"

/-- `os.walk` on that filesystem: walking `rel` visits `rel` (with
subdirectory `s`) and then `rel/s` (empty). -/
def fsCEwalk (b : String) : List (String × List String) :=
  if b == "rel" then [("rel", ["s"]), ("rel/s", [])] else []

/-- `Path(p).resolve()` on that filesystem: relative spellings resolve
against the working directory `/abs`; absolute ones are already
resolved. -/
def fsCEresolve (p : String) : String :=
  if p == "rel" then "/abs/rel" else if p == "rel/s" then "/abs/rel/s" else p

/-- The concrete filesystem model combining the pieces above (no
environment variables or `~` in play, so expansion is the identity). -/
def fsCE : FsModel := ⟨id, fsCEisdir, fsCEwalk, fsCEresolve⟩

/-!
## Association-list lemmas
-/

theorem alookup_append_of_some {α : Type} {l : List (String × α)} {n : String} {v : α}
    (t : List (String × α)) (h : alookup l n = some v) :
    alookup (l ++ t) n = some v := by
  induction l with
  | nil => simp [alookup] at h
  | cons x l ih =>
    obtain ⟨m, w⟩ := x
    by_cases hm : m = n
    · simpa [alookup, hm] using h
    · rw [List.cons_append, alookup, if_neg hm]
      rw [alookup, if_neg hm] at h
      exact ih h

theorem alookup_append_single_ne {α : Type} (l : List (String × α)) {m n : String}
    (v : α) (h : m ≠ n) :
    alookup (l ++ [(m, v)]) n = alookup l n := by
  induction l with
  | nil => simp [alookup, h]
  | cons x l ih =>
    obtain ⟨k, w⟩ := x
    by_cases hk : k = n
    · simp [alookup, hk]
    · rw [List.cons_append, alookup, if_neg hk, alookup, if_neg hk]
      exact ih

theorem alookup_addSeen_ne (seen : List (String × List String)) {f n : String}
    (p : String) (h : f ≠ n) :
    alookup (addSeen seen f p) n = alookup seen n := by
  induction seen with
  | nil => simp [addSeen, alookup, h]
  | cons x rest ih =>
    obtain ⟨m, ps⟩ := x
    by_cases hm : m = f
    · rw [addSeen, if_pos hm, alookup, alookup]
      subst hm
      rw [if_neg h, if_neg h]
    · rw [addSeen, if_neg hm]
      by_cases hn : m = n
      · rw [alookup, if_pos hn, alookup, if_pos hn]
      · rw [alookup, if_neg hn, alookup, if_neg hn]
        exact ih

theorem alookup_addSeen_self (seen : List (String × List String)) (n p : String) :
    alookup (addSeen seen n p) n = some ((alookup seen n).getD [] ++ [p]) := by
  induction seen with
  | nil => simp [addSeen, alookup]
  | cons x rest ih =>
    obtain ⟨m, ps⟩ := x
    by_cases hm : m = n
    · rw [addSeen, if_pos hm, alookup, if_pos hm, alookup, if_pos hm]
      simp
    · rw [addSeen, if_neg hm, alookup, if_neg hm, alookup, if_neg hm]
      exact ih

theorem alookup_setFile_self (l : List (String × String)) (n c : String) :
    alookup (setFile l n c) n = some c := by
  induction l with
  | nil => simp [setFile, alookup]
  | cons x rest ih =>
    obtain ⟨m, v⟩ := x
    by_cases hm : m = n
    · rw [setFile, if_pos hm, alookup, if_pos hm]
    · rw [setFile, if_neg hm, alookup, if_neg hm]
      exact ih

theorem alookup_setFile_ne (l : List (String × String)) {m n : String} (c : String)
    (h : m ≠ n) :
    alookup (setFile l n c) m = alookup l m := by
  induction l with
  | nil => simp [setFile, alookup, Ne.symm h]
  | cons x rest ih =>
    obtain ⟨k, v⟩ := x
    by_cases hk : k = n
    · rw [setFile, if_pos hk, alookup, alookup]
      subst hk
      rw [if_neg (fun e => h e.symm), if_neg (fun e => h e.symm)]
    · rw [setFile, if_neg hk]
      by_cases hkm : k = m
      · rw [alookup, if_pos hkm, alookup, if_pos hkm]
      · rw [alookup, if_neg hkm, alookup, if_neg hkm]
        exact ih

theorem alookup_singleton_ne {α : Type} {m n : String} (v : α) (h : m ≠ n) :
    alookup [(m, v)] n = none := by
  simp [alookup, h]

theorem alookup_append_self_of_none {α : Type} {l : List (String × α)} {n : String}
    (v : α) (h : alookup l n = none) :
    alookup (l ++ [(n, v)]) n = some v := by
  induction l with
  | nil => simp [alookup]
  | cons x l ih =>
    obtain ⟨m, w⟩ := x
    by_cases hm : m = n
    · rw [alookup, if_pos hm] at h
      exact absurd h (by simp)
    · rw [alookup, if_neg hm] at h
      rw [List.cons_append, alookup, if_neg hm]
      exact ih h

/-!
## Entry-level lemmas for the assembler
-/

theorem processEntry_warns (tN : String) (c : Bool) (dp : String) (st : BState)
    (f : String) : (processEntry tN c dp st f).warns = st.warns := by
  unfold processEntry
  split
  · rfl
  · split <;> rfl

theorem processEntry_scratch_shape (tN : String) (c : Bool) (dp : String) (st : BState)
    (f : String) : ∃ t, (processEntry tN c dp st f).scratch = st.scratch ++ t := by
  unfold processEntry
  split
  · exact ⟨[], by simp⟩
  · split
    · exact ⟨[], by simp⟩
    · exact ⟨_, rfl⟩

theorem processEntry_scratch_ne (tN : String) (c : Bool) (dp : String) (st : BState)
    {f n : String} (h : f ≠ n) :
    alookup (processEntry tN c dp st f).scratch n = alookup st.scratch n := by
  unfold processEntry
  split
  · rfl
  · split
    · rfl
    · exact alookup_append_single_ne _ _ h

theorem processEntry_seen_ne (tN : String) (c : Bool) (dp : String) (st : BState)
    {f n : String} (h : f ≠ n) :
    alookup (processEntry tN c dp st f).seen n = alookup st.seen n := by
  unfold processEntry
  split
  · rfl
  · split
    · exact alookup_addSeen_ne _ _ h
    · rfl

theorem processEntry_scratch_some (tN : String) (c : Bool) (dp : String) (st : BState)
    (f : String) {n : String} {v : Placed} (h : alookup st.scratch n = some v) :
    alookup (processEntry tN c dp st f).scratch n = some v := by
  unfold processEntry
  split
  · exact h
  · split
    · exact h
    · exact alookup_append_of_some _ h

theorem processEntry_self_fresh (tN : String) (c : Bool) (dp : String) (st : BState)
    {n : String} (hn : n ≠ tN) (h0 : alookup st.scratch n = none) :
    processEntry tN c dp st n
      = { st with scratch := st.scratch ++ [(n, placeFile c (joinPath dp n))] } := by
  simp [processEntry, hn, h0]

theorem processEntry_self_coll (tN : String) (c : Bool) (dp : String) (st : BState)
    {n : String} (hn : n ≠ tN) {v : Placed} (h : alookup st.scratch n = some v) :
    processEntry tN c dp st n = { st with seen := addSeen st.seen n dp } := by
  simp [processEntry, hn, h]

/-!
## Entries-fold lemmas
-/

theorem foldE_warns (tN : String) (c : Bool) (dp : String) :
    ∀ (entries : List String) (st : BState),
      (entries.foldl (processEntry tN c dp) st).warns = st.warns := by
  intro entries
  induction entries with
  | nil => intro st; rfl
  | cons e es ih =>
    intro st
    rw [List.foldl_cons, ih, processEntry_warns]

theorem foldE_scratch_shape (tN : String) (c : Bool) (dp : String) :
    ∀ (entries : List String) (st : BState),
      ∃ t, (entries.foldl (processEntry tN c dp) st).scratch = st.scratch ++ t := by
  intro entries
  induction entries with
  | nil => intro st; exact ⟨[], by simp⟩
  | cons e es ih =>
    intro st
    obtain ⟨t1, h1⟩ := processEntry_scratch_shape tN c dp st e
    obtain ⟨t2, h2⟩ := ih (processEntry tN c dp st e)
    exact ⟨t1 ++ t2, by rw [List.foldl_cons, h2, h1, List.append_assoc]⟩

theorem foldE_scratch_some (tN : String) (c : Bool) (dp : String) :
    ∀ (entries : List String) (st : BState) {n : String} {v : Placed},
      alookup st.scratch n = some v →
      alookup ((entries.foldl (processEntry tN c dp) st)).scratch n = some v := by
  intro entries
  induction entries with
  | nil => intro st n v h; exact h
  | cons e es ih =>
    intro st n v h
    rw [List.foldl_cons]
    exact ih _ (processEntry_scratch_some tN c dp st e h)

theorem foldE_scratch_ne (tN : String) (c : Bool) (dp : String) :
    ∀ (entries : List String) (st : BState) {n : String}, n ∉ entries →
      alookup ((entries.foldl (processEntry tN c dp) st)).scratch n
        = alookup st.scratch n := by
  intro entries
  induction entries with
  | nil => intro st n _; rfl
  | cons e es ih =>
    intro st n hn
    rw [List.foldl_cons, ih _ (fun hmem => hn (List.mem_cons_of_mem e hmem)),
      processEntry_scratch_ne tN c dp st (fun he => hn (by rw [← he]; exact List.mem_cons_self e es))]

theorem foldE_seen_ne (tN : String) (c : Bool) (dp : String) :
    ∀ (entries : List String) (st : BState) {n : String}, n ∉ entries →
      alookup ((entries.foldl (processEntry tN c dp) st)).seen n
        = alookup st.seen n := by
  intro entries
  induction entries with
  | nil => intro st n _; rfl
  | cons e es ih =>
    intro st n hn
    rw [List.foldl_cons, ih _ (fun hmem => hn (List.mem_cons_of_mem e hmem)),
      processEntry_seen_ne tN c dp st (fun he => hn (by rw [← he]; exact List.mem_cons_self e es))]

theorem foldE_place (tN : String) (c : Bool) (dp : String) :
    ∀ (entries : List String) (st : BState) {n : String},
      n ∈ entries → entries.Nodup → n ≠ tN → alookup st.scratch n = none →
      alookup ((entries.foldl (processEntry tN c dp) st)).scratch n
          = some (placeFile c (joinPath dp n))
        ∧ alookup ((entries.foldl (processEntry tN c dp) st)).seen n
          = alookup st.seen n := by
  intro entries
  induction entries with
  | nil => intro st n hmem; exact absurd hmem (List.not_mem_nil n)
  | cons e es ih =>
    intro st n hmem hnd hn h0
    rw [List.foldl_cons]
    by_cases he : e = n
    · subst he
      rw [processEntry_self_fresh tN c dp st hn h0]
      have hnes : e ∉ es := (List.nodup_cons.mp hnd).1
      constructor
      · rw [foldE_scratch_ne tN c dp es _ hnes]
        exact alookup_append_self_of_none _ h0
      · rw [foldE_seen_ne tN c dp es _ hnes]
    · have hmem' : n ∈ es := by
        rcases List.mem_cons.mp hmem with h | h
        · exact absurd h.symm he
        · exact h
      have h0' : alookup (processEntry tN c dp st e).scratch n = none := by
        rw [processEntry_scratch_ne tN c dp st he]; exact h0
      obtain ⟨hs, hsn⟩ := ih _ hmem' (List.nodup_cons.mp hnd).2 hn h0'
      exact ⟨hs, by rw [hsn, processEntry_seen_ne tN c dp st he]⟩

theorem foldE_coll (tN : String) (c : Bool) (dp : String) :
    ∀ (entries : List String) (st : BState) {n : String} {v : Placed},
      n ∈ entries → entries.Nodup → n ≠ tN → alookup st.scratch n = some v →
      alookup ((entries.foldl (processEntry tN c dp) st)).scratch n = some v
        ∧ alookup ((entries.foldl (processEntry tN c dp) st)).seen n
          = some ((alookup st.seen n).getD [] ++ [dp]) := by
  intro entries
  induction entries with
  | nil => intro st n v hmem; exact absurd hmem (List.not_mem_nil n)
  | cons e es ih =>
    intro st n v hmem hnd hn h0
    rw [List.foldl_cons]
    by_cases he : e = n
    · subst he
      rw [processEntry_self_coll tN c dp st hn h0]
      have hnes : e ∉ es := (List.nodup_cons.mp hnd).1
      constructor
      · exact foldE_scratch_some tN c dp es _ h0
      · rw [foldE_seen_ne tN c dp es _ hnes]
        exact alookup_addSeen_self _ _ _
    · have hmem' : n ∈ es := by
        rcases List.mem_cons.mp hmem with h | h
        · exact absurd h.symm he
        · exact h
      have h0' : alookup (processEntry tN c dp st e).scratch n = some v := by
        rw [processEntry_scratch_ne tN c dp st he]; exact h0
      obtain ⟨hs, hsn⟩ := ih _ hmem' (List.nodup_cons.mp hnd).2 hn h0'
      refine ⟨hs, ?_⟩
      rw [hsn, processEntry_seen_ne tN c dp st he]

/-!
## Directory-level lemmas
-/

theorem processDir_warns_shape (tN : String) (c : Bool) (st : BState) (d : SDir) :
    (processDir tN c st d).warns = st.warns
      ∨ (processDir tN c st d).warns = st.warns ++ [Warning.skipDir d.path] := by
  unfold processDir
  split
  · exact Or.inl (foldE_warns tN c d.path d.entries st)
  · exact Or.inr rfl

theorem dirHas_mem {n : String} {d : SDir} (h : dirHas n d = true) :
    d.isDir = true ∧ n ∈ d.entries := by
  rw [dirHas, Bool.and_eq_true] at h
  exact ⟨h.1, by simpa using h.2⟩

theorem dirHas_not_mem {n : String} {d : SDir} (h : dirHas n d = false)
    (hdir : d.isDir = true) : n ∉ d.entries := by
  rw [dirHas, hdir, Bool.true_and] at h
  simpa using h

theorem processDir_scratch_ne (tN : String) (c : Bool) (st : BState) {d : SDir}
    {n : String} (h : dirHas n d = false) :
    alookup (processDir tN c st d).scratch n = alookup st.scratch n := by
  unfold processDir
  split
  · next hdir => exact foldE_scratch_ne tN c d.path d.entries st (dirHas_not_mem h hdir)
  · rfl

theorem processDir_seen_ne (tN : String) (c : Bool) (st : BState) {d : SDir}
    {n : String} (h : dirHas n d = false) :
    alookup (processDir tN c st d).seen n = alookup st.seen n := by
  unfold processDir
  split
  · next hdir => exact foldE_seen_ne tN c d.path d.entries st (dirHas_not_mem h hdir)
  · rfl

theorem processDir_scratch_some (tN : String) (c : Bool) (st : BState) (d : SDir)
    {n : String} {v : Placed} (h : alookup st.scratch n = some v) :
    alookup (processDir tN c st d).scratch n = some v := by
  unfold processDir
  split
  · exact foldE_scratch_some tN c d.path d.entries st h
  · exact h

theorem processDir_place (tN : String) (c : Bool) (st : BState) {d : SDir} {n : String}
    (hd : dirHas n d = true) (hnd : d.entries.Nodup) (hn : n ≠ tN)
    (h0 : alookup st.scratch n = none) :
    alookup (processDir tN c st d).scratch n = some (placeFile c (joinPath d.path n))
      ∧ alookup (processDir tN c st d).seen n = alookup st.seen n := by
  obtain ⟨hdir, hmem⟩ := dirHas_mem hd
  unfold processDir
  rw [if_pos hdir]
  exact foldE_place tN c d.path d.entries st hmem hnd hn h0

theorem processDir_coll (tN : String) (c : Bool) (st : BState) {d : SDir} {n : String}
    {v : Placed} (hd : dirHas n d = true) (hnd : d.entries.Nodup) (hn : n ≠ tN)
    (h0 : alookup st.scratch n = some v) :
    alookup (processDir tN c st d).scratch n = some v
      ∧ alookup (processDir tN c st d).seen n
        = some ((alookup st.seen n).getD [] ++ [d.path]) := by
  obtain ⟨hdir, hmem⟩ := dirHas_mem hd
  unfold processDir
  rw [if_pos hdir]
  exact foldE_coll tN c d.path d.entries st hmem hnd hn h0

/-!
## `seenAfter` algebra
-/

theorem seenAfter_nil (cur : Option (List String)) : seenAfter cur [] = cur := by
  cases cur <;> simp [seenAfter]

theorem seenAfter_single (cur : Option (List String)) (p : String) :
    seenAfter cur [p] = some (cur.getD [] ++ [p]) := by
  cases cur <;> simp [seenAfter]

theorem seenAfter_step (cur : Option (List String)) (p : String) (l : List String) :
    seenAfter (seenAfter cur [p]) l = seenAfter cur (p :: l) := by
  cases cur <;> simp [seenAfter]

/-!
## Fold over the directory list: staged behaviour on one filename
-/

theorem foldD_phase2 (tN : String) (c : Bool) {n : String} :
    ∀ (dirs : List SDir) (st : BState) {v : Placed},
      (∀ d ∈ dirs, d.entries.Nodup) → n ≠ tN → alookup st.scratch n = some v →
      alookup ((dirs.foldl (processDir tN c) st)).scratch n = some v
        ∧ alookup ((dirs.foldl (processDir tN c) st)).seen n
          = seenAfter (alookup st.seen n) ((dirs.filter (dirHas n)).map SDir.path) := by
  intro dirs
  induction dirs with
  | nil =>
    intro st v _ _ h0
    exact ⟨h0, (seenAfter_nil _).symm⟩
  | cons d ds ih =>
    intro st v hwf hn h0
    rw [List.foldl_cons]
    cases hd : dirHas n d with
    | false =>
      have h0' : alookup (processDir tN c st d).scratch n = some v := by
        rw [processDir_scratch_ne tN c st hd]; exact h0
      obtain ⟨hs, hsn⟩ := ih (processDir tN c st d)
        (fun e he => hwf e (List.mem_cons_of_mem d he)) hn h0'
      refine ⟨hs, ?_⟩
      rw [hsn, processDir_seen_ne tN c st hd, List.filter_cons_of_neg (by simp [hd])]
    | true =>
      obtain ⟨hs1, hsn1⟩ :=
        processDir_coll tN c st hd (hwf d (List.mem_cons_self d ds)) hn h0
      obtain ⟨hs, hsn⟩ := ih (processDir tN c st d)
        (fun e he => hwf e (List.mem_cons_of_mem d he)) hn hs1
      refine ⟨hs, ?_⟩
      rw [hsn, hsn1, ← seenAfter_single, seenAfter_step,
        List.filter_cons_of_pos (by simp [hd]), List.map_cons]

theorem foldD_phase1 (tN : String) (c : Bool) {n : String} :
    ∀ (dirs : List SDir) (st : BState),
      (∀ d ∈ dirs, d.entries.Nodup) → n ≠ tN →
      alookup st.scratch n = none → alookup st.seen n = none →
      ((dirs.filter (dirHas n) = [] →
          alookup ((dirs.foldl (processDir tN c) st)).scratch n = none
            ∧ alookup ((dirs.foldl (processDir tN c) st)).seen n = none)
        ∧ ∀ (d0 : SDir) (rest : List SDir), dirs.filter (dirHas n) = d0 :: rest →
            alookup ((dirs.foldl (processDir tN c) st)).scratch n
                = some (placeFile c (joinPath d0.path n))
              ∧ alookup ((dirs.foldl (processDir tN c) st)).seen n
                = seenAfter none (rest.map SDir.path)) := by
  intro dirs
  induction dirs with
  | nil =>
    intro st _ _ h0 h1
    exact ⟨fun _ => ⟨h0, h1⟩, fun d0 rest h => by simp at h⟩
  | cons d ds ih =>
    intro st hwf hn h0 h1
    rw [List.foldl_cons]
    cases hd : dirHas n d with
    | false =>
      have h0' : alookup (processDir tN c st d).scratch n = none := by
        rw [processDir_scratch_ne tN c st hd]; exact h0
      have h1' : alookup (processDir tN c st d).seen n = none := by
        rw [processDir_seen_ne tN c st hd]; exact h1
      have := ih (processDir tN c st d)
        (fun e he => hwf e (List.mem_cons_of_mem d he)) hn h0' h1'
      rw [List.filter_cons_of_neg (by simp [hd])]
      exact this
    | true =>
      rw [List.filter_cons_of_pos (by simp [hd])]
      refine ⟨fun h => by simp at h, ?_⟩
      intro d0 rest heq
      obtain ⟨he1, he2⟩ := List.cons.injEq d (ds.filter (dirHas n)) d0 rest ▸ heq
      obtain ⟨hs1, hsn1⟩ :=
        processDir_place tN c st hd (hwf d (List.mem_cons_self d ds)) hn h0
      obtain ⟨hs, hsn⟩ := foldD_phase2 tN c ds (processDir tN c st d)
        (fun e he => hwf e (List.mem_cons_of_mem d he)) hn hs1
      constructor
      · rw [hs, ← he1]
      · rw [hsn, hsn1, h1, ← he2]

/-!
## Key uniqueness of `filenames_seen` and the duplicate-warning report
-/

theorem mem_keys_addSeen {seen : List (String × List String)} {m n p : String}
    (h : m ∈ (addSeen seen n p).map Prod.fst) :
    m = n ∨ m ∈ seen.map Prod.fst := by
  induction seen with
  | nil => simpa [addSeen] using h
  | cons x rest ih =>
    obtain ⟨k, ps⟩ := x
    by_cases hk : k = n
    · rw [addSeen, if_pos hk] at h
      simp only [List.map_cons, List.mem_cons] at h ⊢
      rcases h with h | h
      · exact Or.inr (Or.inl h)
      · exact Or.inr (Or.inr h)
    · rw [addSeen, if_neg hk] at h
      simp only [List.map_cons, List.mem_cons] at h ⊢
      rcases h with h | h
      · exact Or.inr (Or.inl h)
      · rcases ih h with h' | h'
        · exact Or.inl h'
        · exact Or.inr (Or.inr h')

theorem nodupKeys_addSeen {seen : List (String × List String)} (n p : String)
    (h : (seen.map Prod.fst).Nodup) :
    ((addSeen seen n p).map Prod.fst).Nodup := by
  induction seen with
  | nil => simp [addSeen]
  | cons x rest ih =>
    obtain ⟨k, ps⟩ := x
    rw [List.map_cons, List.nodup_cons] at h
    by_cases hk : k = n
    · rw [addSeen, if_pos hk, List.map_cons]
      exact List.nodup_cons.mpr h
    · rw [addSeen, if_neg hk, List.map_cons]
      refine List.nodup_cons.mpr ⟨?_, ih h.2⟩
      intro hmem
      rcases mem_keys_addSeen hmem with h' | h'
      · exact hk h'
      · exact h.1 h'

theorem nodupKeys_processEntry (tN : String) (c : Bool) (dp : String) (st : BState)
    (f : String) (h : (st.seen.map Prod.fst).Nodup) :
    (((processEntry tN c dp st f).seen).map Prod.fst).Nodup := by
  unfold processEntry
  split
  · exact h
  · split
    · exact nodupKeys_addSeen f dp h
    · exact h

theorem nodupKeys_foldE (tN : String) (c : Bool) (dp : String) :
    ∀ (entries : List String) (st : BState), (st.seen.map Prod.fst).Nodup →
      ((((entries.foldl (processEntry tN c dp) st)).seen).map Prod.fst).Nodup := by
  intro entries
  induction entries with
  | nil => intro st h; exact h
  | cons e es ih =>
    intro st h
    rw [List.foldl_cons]
    exact ih _ (nodupKeys_processEntry tN c dp st e h)

theorem nodupKeys_processDir (tN : String) (c : Bool) (st : BState) (d : SDir)
    (h : (st.seen.map Prod.fst).Nodup) :
    (((processDir tN c st d).seen).map Prod.fst).Nodup := by
  unfold processDir
  split
  · exact nodupKeys_foldE tN c d.path d.entries st h
  · exact h

theorem nodupKeys_foldD (tN : String) (c : Bool) :
    ∀ (dirs : List SDir) (st : BState), (st.seen.map Prod.fst).Nodup →
      ((((dirs.foldl (processDir tN c) st)).seen).map Prod.fst).Nodup := by
  intro dirs
  induction dirs with
  | nil => intro st h; exact h
  | cons d ds ih =>
    intro st h
    rw [List.foldl_cons]
    exact ih _ (nodupKeys_processDir tN c st d h)

theorem alookup_eq_none_of_not_mem_keys {α : Type} {l : List (String × α)} {n : String}
    (h : n ∉ l.map Prod.fst) : alookup l n = none := by
  induction l with
  | nil => rfl
  | cons x rest ih =>
    obtain ⟨m, v⟩ := x
    rw [List.map_cons, List.mem_cons] at h
    push_neg at h
    rw [alookup, if_neg (fun e => h.1 e.symm)]
    exact ih h.2

theorem filter_dup_of_not_mem_keys {seen : List (String × List String)} {n : String}
    (h : n ∉ seen.map Prod.fst) :
    (seen.map (fun fs => Warning.duplicate fs.1 fs.2)).filter (isDupFor n) = [] := by
  induction seen with
  | nil => rfl
  | cons x rest ih =>
    obtain ⟨m, ps⟩ := x
    rw [List.map_cons, List.mem_cons] at h
    push_neg at h
    rw [List.map_cons, List.filter_cons_of_neg (by simp [isDupFor, Ne.symm h.1]), ih h.2]

theorem filter_dup_of_alookup {seen : List (String × List String)} {n : String}
    {srcs : List String} (hnd : (seen.map Prod.fst).Nodup)
    (h : alookup seen n = some srcs) :
    (seen.map (fun fs => Warning.duplicate fs.1 fs.2)).filter (isDupFor n)
      = [Warning.duplicate n srcs] := by
  induction seen with
  | nil => simp [alookup] at h
  | cons x rest ih =>
    obtain ⟨m, ps⟩ := x
    rw [List.map_cons, List.nodup_cons] at hnd
    by_cases hm : m = n
    · subst hm
      rw [alookup, if_pos rfl] at h
      obtain rfl : ps = srcs := by injection h
      rw [List.map_cons, List.filter_cons_of_pos (by simp [isDupFor]),
        filter_dup_of_not_mem_keys hnd.1]
    · rw [alookup, if_neg hm] at h
      rw [List.map_cons, List.filter_cons_of_neg (by simp [isDupFor, hm]), ih hnd.2 h]

theorem filter_dup_of_skipDirs {l : List Warning} {n : String}
    (h : ∀ w ∈ l, ∃ p, w = Warning.skipDir p) : l.filter (isDupFor n) = [] := by
  induction l with
  | nil => rfl
  | cons w rest ih =>
    obtain ⟨p, rfl⟩ := h w (List.mem_cons_self w rest)
    rw [List.filter_cons_of_neg (by simp [isDupFor])]
    exact ih (fun w' hw' => h w' (List.mem_cons_of_mem _ hw'))

theorem foldD_warns_skipDirs (tN : String) (c : Bool) :
    ∀ (dirs : List SDir) (st : BState),
      (∀ w ∈ st.warns, ∃ p, w = Warning.skipDir p) →
      ∀ w ∈ ((dirs.foldl (processDir tN c) st)).warns, ∃ p, w = Warning.skipDir p := by
  intro dirs
  induction dirs with
  | nil => intro st h; exact h
  | cons d ds ih =>
    intro st h
    rw [List.foldl_cons]
    refine ih _ ?_
    rcases processDir_warns_shape tN c st d with hsh | hsh
    · rw [hsh]; exact h
    · rw [hsh]
      intro w hw
      rcases List.mem_append.mp hw with hw | hw
      · exact h w hw
      · exact ⟨d.path, by simpa using hw⟩

/-!
## Scratch directory is append-only (the main document entry stays first)
-/

theorem processDir_scratch_shape (tN : String) (c : Bool) (st : BState) (d : SDir) :
    ∃ t, (processDir tN c st d).scratch = st.scratch ++ t := by
  unfold processDir
  split
  · exact foldE_scratch_shape tN c d.path d.entries st
  · exact ⟨[], by simp⟩

theorem foldD_scratch_shape (tN : String) (c : Bool) :
    ∀ (dirs : List SDir) (st : BState),
      ∃ t, ((dirs.foldl (processDir tN c) st)).scratch = st.scratch ++ t := by
  intro dirs
  induction dirs with
  | nil => intro st; exact ⟨[], by simp⟩
  | cons d ds ih =>
    intro st
    obtain ⟨t1, h1⟩ := processDir_scratch_shape tN c st d
    obtain ⟨t2, h2⟩ := ih (processDir tN c st d)
    exact ⟨t1 ++ t2, by rw [List.foldl_cons, h2, h1, List.append_assoc]⟩

/-!
## Naming lemma for the artifact/jobname convention
-/

theorem rsplitStem_eq_pyStem_of_tex {s : String} (h : pySuffix s = ".tex") :
    rsplitStem s = pyStem s := by
  unfold pySuffix pySuffixL at h
  unfold rsplitStem pyStem rsplitStemL pyStemL
  cases hs : splitLastDot s.data with
  | none => rfl
  | some pr =>
    rw [hs] at h
    obtain ⟨pre, suf⟩ := pr
    by_cases hc : pre ≠ [] ∧ suf ≠ []
    · simp [hc]
    · have h' : (⟨if pre ≠ [] ∧ suf ≠ [] then '.' :: suf else []⟩ : String) = ".tex" := h
      rw [if_neg hc] at h'
      exact absurd h' (by decide)

/-!
## Claim theorems
-/

/-- Claim C1 (code bug): `run_latex_build` is claimed to remove the scratch
directory on every outcome, but when `compile_document` returns `None`
(timeout here, likewise non-zero exit) the function returns at line 265
before the `shutil.rmtree` at line 277, leaving the scratch directory on
disk: for a valid `paper.tex` whose compilation times out, the trace shows
the scratch directory created but never removed — while the same run with a
successful compilation does remove it. -/
theorem C1_failing :
    (run_latex_build exPaperTex "paper.tex" "/w/paper.tex" [] "/w" [] oracleW
        false [] RunOutcome.timedOut false).1
      = ⟨RunExit.compileFailed, true, false⟩
    ∧ (run_latex_build exPaperTex "paper.tex" "/w/paper.tex" [] "/w" [] oracleW
        false [] (RunOutcome.completed "" "") true).1
      = ⟨RunExit.doneSuccess "paper.pdf", true, true⟩ := by
  decide

/-- Claim C2, counterexample: with the copy boolean set to `true`,
`prepare_build_directory` still places the source document as a symlink
(line 127 is an unconditional `os.symlink`), not as a copy as the claim
states. -/
theorem C2_counterexample :
    (prepare_build_directory "/home/paper.tex" "paper.tex" [] true).scratch
      = [("paper.tex", Placed.link "/home/paper.tex")]
    ∧ Placed.link "/home/paper.tex" ≠ Placed.copy "/home/paper.tex" := by
  decide

/-- Claim C2, amended: for every invocation of `prepare_build_directory`
the source document is placed into the scratch directory first under its
original filename, always as a filesystem link, regardless of the copy
boolean (which governs supporting files only). -/
theorem C2_amended (texPath texName : String) (extrasDirs : List SDir)
    (copyExtras : Bool) :
    ∃ t, (prepare_build_directory texPath texName extrasDirs copyExtras).scratch
      = (texName, Placed.link texPath) :: t := by
  obtain ⟨t, ht⟩ := foldD_scratch_shape texName copyExtras extrasDirs
    ⟨[(texName, Placed.link texPath)], [], []⟩
  refine ⟨t, ?_⟩
  have hpre : (prepare_build_directory texPath texName extrasDirs copyExtras).scratch
      = ((extrasDirs.foldl (processDir texName copyExtras)
          ⟨[(texName, Placed.link texPath)], [], []⟩)).scratch := rfl
  rw [hpre, ht, List.singleton_append]

/-- Claim C8: `compile_document` reports a timeout and returns no result on
`TimeoutExpired`; reports the captured stdout and stderr verbatim and
returns no result on a non-zero exit; and returns the captured result with
no message on success. -/
theorem C8_confirmed (texFilename : String) (latexmkArgs : List String)
    (so se : String) :
    (compile_document texFilename latexmkArgs RunOutcome.timedOut).result = none
    ∧ (compile_document texFilename latexmkArgs RunOutcome.timedOut).messages
        = ["LaTeX compilation timed out."]
    ∧ (compile_document texFilename latexmkArgs (RunOutcome.failed so se)).result = none
    ∧ (compile_document texFilename latexmkArgs (RunOutcome.failed so se)).messages
        = ["LaTeX compilation failed.", "----- STDOUT -----", so,
           "----- STDERR -----", se]
    ∧ (compile_document texFilename latexmkArgs (RunOutcome.completed so se)).result
        = some ⟨so, se⟩
    ∧ (compile_document texFilename latexmkArgs (RunOutcome.completed so se)).messages
        = [] :=
  ⟨rfl, rfl, rfl, rfl, rfl, rfl⟩

/-- Claim C9: for a document name carrying the `.tex` suffix (guaranteed by
`run_latex_build`'s validation), the artifact name the relocator expects,
`artifactName`, equals the `-jobname` the invoker configured plus `.pdf`;
and the destination name is the source's stem with the `.pdf` extension,
which `post_process_pdf` returns when the artifact is present. -/
theorem C9_confirmed (texName : String) (h : pySuffix texName = ".tex") :
    artifactName texName = jobname texName ++ ".pdf"
    ∧ withSuffix texName ".pdf" = pyStem texName ++ ".pdf"
    ∧ ∀ (buildFiles destFs : List (String × String)) (content : String),
        alookup buildFiles (artifactName texName) = some content →
        (post_process_pdf buildFiles texName destFs).1
          = some (pyStem texName ++ ".pdf") := by
  refine ⟨?_, rfl, ?_⟩
  · unfold artifactName jobname
    rw [rsplitStem_eq_pyStem_of_tex h]
    have hsplit : ("_build.pdf" : String) = "_build" ++ ".pdf" := by decide
    rw [hsplit, ← String.append_assoc]
  · intro buildFiles destFs content hc
    have key : post_process_pdf buildFiles texName destFs
        = (some (withSuffix texName ".pdf"),
            setFile destFs (withSuffix texName ".pdf") content, []) := by
      simp only [post_process_pdf, hc]
    rw [key]
    rfl

/-- Witness for C9: the convention check at the concrete name
`paper.tex`. -/
theorem C9_witness : artifactName "paper.tex" = jobname "paper.tex" ++ ".pdf" :=
  (C9_confirmed "paper.tex" (by decide)).1

/-- Claim C10: whenever the expected artifact is present in the scratch
directory, `post_process_pdf` copies it onto the destination name next to
the source — for every prior state of that destination, including an
already-existing file, whose content is silently replaced (no message is
printed), and no other destination entry is touched. -/
theorem C10_confirmed (buildFiles destFs : List (String × String))
    (texName content : String)
    (h : alookup buildFiles (artifactName texName) = some content) :
    (post_process_pdf buildFiles texName destFs).1 = some (withSuffix texName ".pdf")
    ∧ alookup (post_process_pdf buildFiles texName destFs).2.1
        (withSuffix texName ".pdf") = some content
    ∧ (∀ m, m ≠ withSuffix texName ".pdf" →
        alookup (post_process_pdf buildFiles texName destFs).2.1 m = alookup destFs m)
    ∧ (post_process_pdf buildFiles texName destFs).2.2 = [] := by
  have key : post_process_pdf buildFiles texName destFs
      = (some (withSuffix texName ".pdf"),
          setFile destFs (withSuffix texName ".pdf") content, []) := by
    simp only [post_process_pdf, h]
  rw [key]
  exact ⟨rfl, alookup_setFile_self _ _ _, fun m hm => alookup_setFile_ne _ _ hm, rfl⟩

/-- Witness for C10: the destination `paper.pdf` already holds `"old"`, and
after relocation it holds the artifact's content `"new"`. -/
theorem C10_witness :
    alookup (post_process_pdf [("paper_build.pdf", "new")] "paper.tex"
        [("paper.pdf", "old")]).2.1 "paper.pdf" = some "new" := by
  have h := C10_confirmed [("paper_build.pdf", "new")] [("paper.pdf", "old")]
    "paper.tex" "new" (by decide)
  have e : withSuffix "paper.tex" ".pdf" = "paper.pdf" := by decide
  rw [← e]
  exact h.2.1

/-- Claim C3, counterexample: `main.tex` is present in exactly one
supporting directory (`/sty`), yet after `prepare_build_directory` the only
scratch entry under that name is the link to the main document placed
first (line 127) — the supporting file was skipped by the
`extra_file.name == tex_path.name` guard at line 136 and does not appear
under its original name. -/
theorem C3_counterexample :
    (prepare_build_directory "/home/doc/main.tex" "main.tex"
        [⟨"/sty", true, ["main.tex"]⟩] false).scratch
      = [("main.tex", Placed.link "/home/doc/main.tex")]
    ∧ Placed.link "/home/doc/main.tex" ≠ Placed.link (joinPath "/sty" "main.tex")
    ∧ dirHas "main.tex" ⟨"/sty", true, ["main.tex"]⟩ = true := by
  decide

/-- Claim C3, amended: a file whose name differs from the main document's
filename and is present in exactly one (existing) supporting directory
appears in the scratch directory under its original name, linked or copied
from that directory, after `prepare_build_directory` completes. -/
theorem C3_amended (texPath texName n : String) (extrasDirs : List SDir)
    (copyExtras : Bool) (hn : n ≠ texName)
    (hwf : ∀ d ∈ extrasDirs, d.entries.Nodup) (d0 : SDir)
    (hu : extrasDirs.filter (dirHas n) = [d0]) :
    alookup (prepare_build_directory texPath texName extrasDirs copyExtras).scratch n
      = some (placeFile copyExtras (joinPath d0.path n)) := by
  have h0 : alookup ([(texName, Placed.link texPath)] : List (String × Placed)) n
      = none := alookup_singleton_ne _ (Ne.symm hn)
  have hph := (foldD_phase1 texName copyExtras extrasDirs
    ⟨[(texName, Placed.link texPath)], [], []⟩ hwf hn h0 rfl).2 d0 [] hu
  have hpre : (prepare_build_directory texPath texName extrasDirs copyExtras).scratch
      = ((extrasDirs.foldl (processDir texName copyExtras)
          ⟨[(texName, Placed.link texPath)], [], []⟩)).scratch := rfl
  rw [hpre]
  exact hph.1

/-- Witness for C3 (amended): `refs.bib`, present only in `/s`, is linked
into the scratch directory under its own name. -/
theorem C3_witness :
    alookup (prepare_build_directory "/home/d/m.tex" "m.tex"
        [⟨"/s", true, ["refs.bib"]⟩] false).scratch "refs.bib"
      = some (Placed.link "/s/refs.bib") := by
  have h := C3_amended "/home/d/m.tex" "m.tex" "refs.bib"
    [⟨"/s", true, ["refs.bib"]⟩] false (by decide) (by decide)
    ⟨"/s", true, ["refs.bib"]⟩ (by decide)
  rw [h]
  decide

/-- Claim C4, counterexample: `refs.bib` is contributed by both `/d1` and
`/d2`; the emitted duplicate warning names only `/d2` — the earliest
contributing directory `/d1` (whose copy was placed, lines 138-141 record
only directories whose copy was skipped) is absent from the warning, so the
warning does not name every directory that contributed the filename. -/
theorem C4_counterexample :
    (prepare_build_directory "/h/m.tex" "m.tex"
        [⟨"/d1", true, ["refs.bib"]⟩, ⟨"/d2", true, ["refs.bib"]⟩] false).warns
      = [Warning.duplicate "refs.bib" ["/d2"]]
    ∧ ("/d1" : String) ∉ (["/d2"] : List String)
    ∧ dirHas "refs.bib" ⟨"/d1", true, ["refs.bib"]⟩ = true := by
  decide

/-- Claim C4, amended: for a colliding filename distinct from the main
document's filename, exactly one version is placed — the one from the
earliest directory (in effective order) that exists and contains the name —
and exactly one duplicate warning is emitted for that filename, naming
every later contributing directory, i.e. every contributing directory
except the earliest one. -/
theorem C4_amended (texPath texName n : String) (extrasDirs : List SDir)
    (copyExtras : Bool) (hn : n ≠ texName)
    (hwf : ∀ d ∈ extrasDirs, d.entries.Nodup) (d0 : SDir) (rest : List SDir)
    (hl : extrasDirs.filter (dirHas n) = d0 :: rest) (hr : rest ≠ []) :
    alookup (prepare_build_directory texPath texName extrasDirs copyExtras).scratch n
        = some (placeFile copyExtras (joinPath d0.path n))
      ∧ ((prepare_build_directory texPath texName extrasDirs copyExtras).warns).filter
          (isDupFor n)
        = [Warning.duplicate n (rest.map SDir.path)] := by
  have h0 : alookup ([(texName, Placed.link texPath)] : List (String × Placed)) n
      = none := alookup_singleton_ne _ (Ne.symm hn)
  have hph := (foldD_phase1 texName copyExtras extrasDirs
    ⟨[(texName, Placed.link texPath)], [], []⟩ hwf hn h0 rfl).2 d0 rest hl
  have hmapne : rest.map SDir.path ≠ [] := fun hmap => hr (List.map_eq_nil_iff.mp hmap)
  have hseen : alookup ((extrasDirs.foldl (processDir texName copyExtras)
      ⟨[(texName, Placed.link texPath)], [], []⟩)).seen n
      = some (rest.map SDir.path) := by
    rw [hph.2]
    simp [seenAfter, hmapne]
  have hpre : (prepare_build_directory texPath texName extrasDirs copyExtras).scratch
      = ((extrasDirs.foldl (processDir texName copyExtras)
          ⟨[(texName, Placed.link texPath)], [], []⟩)).scratch := rfl
  have hprw : (prepare_build_directory texPath texName extrasDirs copyExtras).warns
      = ((extrasDirs.foldl (processDir texName copyExtras)
            ⟨[(texName, Placed.link texPath)], [], []⟩)).warns
        ++ ((extrasDirs.foldl (processDir texName copyExtras)
            ⟨[(texName, Placed.link texPath)], [], []⟩)).seen.map
          (fun fs => Warning.duplicate fs.1 fs.2) := rfl
  constructor
  · rw [hpre]
    exact hph.1
  · rw [hprw, List.filter_append]
    rw [filter_dup_of_skipDirs (foldD_warns_skipDirs texName copyExtras extrasDirs
      ⟨[(texName, Placed.link texPath)], [], []⟩
      (fun w hw => absurd hw (List.not_mem_nil w)))]
    rw [filter_dup_of_alookup (nodupKeys_foldD texName copyExtras extrasDirs
      ⟨[(texName, Placed.link texPath)], [], []⟩ (by simp)) hseen]
    simp

/-- Witness for C4 (amended): with `r.bib` in `/d1` and `/d2`, the placed
version is `/d1`'s and the single duplicate warning names `/d2`. -/
theorem C4_witness :
    alookup (prepare_build_directory "/h/m.tex" "m.tex"
        [⟨"/d1", true, ["r.bib"]⟩, ⟨"/d2", true, ["r.bib"]⟩] false).scratch "r.bib"
      = some (Placed.link "/d1/r.bib")
    ∧ ((prepare_build_directory "/h/m.tex" "m.tex"
        [⟨"/d1", true, ["r.bib"]⟩, ⟨"/d2", true, ["r.bib"]⟩] false).warns).filter
          (isDupFor "r.bib")
      = [Warning.duplicate "r.bib" ["/d2"]] := by
  have h := C4_amended "/h/m.tex" "m.tex" "r.bib"
    [⟨"/d1", true, ["r.bib"]⟩, ⟨"/d2", true, ["r.bib"]⟩] false (by decide)
    (by decide) ⟨"/d1", true, ["r.bib"]⟩ [⟨"/d2", true, ["r.bib"]⟩] (by decide)
    (by decide)
  constructor
  · rw [h.1]
    decide
  · rw [h.2]
    decide

/-- Claim C5, counterexample: the input `paper.txt` does not exist while
`paper.txt.tex` does — the claim's recovery step ("the extension is
appended and resolution re-checked") would therefore succeed, but the code
applies `with_suffix(".tex")`, which **replaces** the final extension
(producing `paper.tex`), and raises the fatal input error instead. -/
theorem C5_counterexample :
    resolveInput exPaperTxtTex "paper.txt" = Except.error "Input must be a .tex file"
    ∧ exPaperTxtTex "paper.txt.tex" = true
    ∧ pySuffix "paper.txt.tex" = ".tex" := by
  decide

/-- Claim C5, amended: a successful resolution yields an existing `.tex`
name; a failed resolution reaches `run_latex_build`'s `raise` before any
scratch directory is created; and when the (dot-stripped) path does not
exist and lacks the `.tex` suffix, the candidate re-checked is the name
with its final extension **replaced** by `.tex` (equivalently: appended,
when the name has no extension), accepted exactly when it exists with the
`.tex` suffix. -/
theorem resolveStep3_ok {ex : String → Bool} {p r : String}
    (h : resolveStep3 ex p = Except.ok r) : ex r = true ∧ pySuffix r = ".tex" := by
  unfold resolveStep3 at h
  split at h
  · exact absurd h (by simp)
  · next hcond =>
    obtain rfl : p = r := by injection h
    simp at hcond
    exact hcond

theorem resolveStep3_eq (ex : String → Bool) (p : String) :
    resolveStep3 ex p
      = if ex p && (pySuffix p == ".tex") then Except.ok p
        else Except.error "Input must be a .tex file" := by
  unfold resolveStep3
  cases hx : ex p <;> cases hy : pySuffix p == ".tex" <;> simp [hx, hy]

theorem C5_amended (ex : String → Bool) (name : String) :
    (∀ r, resolveInput ex name = Except.ok r → ex r = true ∧ pySuffix r = ".tex")
    ∧ (∀ e texPath explicitExtras texDir texdinputsDirs dirOracle copyExtras
          latexmkArgs outcome artifactPresent,
        resolveInput ex name = Except.error e →
        (run_latex_build ex name texPath explicitExtras texDir texdinputsDirs
            dirOracle copyExtras latexmkArgs outcome artifactPresent).1.scratchCreated
          = false)
    ∧ (ex name = false → endsWithDot name = false → pySuffix name ≠ ".tex" →
        resolveInput ex name
          = if ex (pyStem name ++ ".tex")
                && (pySuffix (pyStem name ++ ".tex") == ".tex")
            then Except.ok (pyStem name ++ ".tex")
            else Except.error "Input must be a .tex file") := by
  refine ⟨?_, ?_, ?_⟩
  · intro r h
    simp only [resolveInput] at h
    exact resolveStep3_ok h
  · intro e texPath explicitExtras texDir texdinputsDirs dirOracle copyExtras
      latexmkArgs outcome artifactPresent h
    unfold run_latex_build
    rw [h]
  · intro h1 h2 h3
    have e1 : (if !ex name && endsWithDot name then rstripDots name else name)
        = name := by simp [h2]
    have e2 : (if !ex name && !(pySuffix name == ".tex") then withSuffix name ".tex"
        else name) = withSuffix name ".tex" := by simp [h1, h3]
    have estep : resolveInput ex name = resolveStep3 ex (withSuffix name ".tex") := by
      simp only [resolveInput]
      rw [e1, e2]
    rw [estep, resolveStep3_eq]
    rfl

/-- Witness for C5 (amended): the extensionless input `notes` resolves to
the existing `notes.tex`. -/
theorem C5_witness : resolveInput exNotesTex "notes" = Except.ok "notes.tex" := by
  have h := (C5_amended exNotesTex "notes").2.2 (by decide) (by decide) (by decide)
  rw [h]
  decide

/-!
## `appendUnique` lemmas for the effective-extras list
-/

theorem appendUnique_nodup {α : Type} [DecidableEq α] {acc : List α} (d : α)
    (h : acc.Nodup) : (appendUnique acc d).Nodup := by
  unfold appendUnique
  split
  · exact h
  · next hd => simp [List.nodup_append, h, hd]

theorem foldl_appendUnique_nodup {α : Type} [DecidableEq α] :
    ∀ (texd : List α) (acc : List α), acc.Nodup →
      (texd.foldl appendUnique acc).Nodup := by
  intro texd
  induction texd with
  | nil => intro acc h; exact h
  | cons d ds ih =>
    intro acc h
    rw [List.foldl_cons]
    exact ih _ (appendUnique_nodup d h)

theorem mem_appendUnique_of_mem {α : Type} [DecidableEq α] {x : α} (acc : List α)
    (d : α) (h : x ∈ acc) : x ∈ appendUnique acc d := by
  unfold appendUnique
  split
  · exact h
  · exact List.mem_append_left _ h

theorem self_mem_appendUnique {α : Type} [DecidableEq α] (acc : List α) (d : α) :
    d ∈ appendUnique acc d := by
  unfold appendUnique
  split
  · next hd => exact hd
  · simp

theorem mem_foldl_appendUnique_of_mem {α : Type} [DecidableEq α] {x : α} :
    ∀ (texd : List α) (acc : List α), x ∈ acc →
      x ∈ texd.foldl appendUnique acc := by
  intro texd
  induction texd with
  | nil => intro acc h; exact h
  | cons d ds ih =>
    intro acc h
    rw [List.foldl_cons]
    exact ih _ (mem_appendUnique_of_mem acc d h)

theorem mem_foldl_appendUnique_of_mem_arg {α : Type} [DecidableEq α] {x : α} :
    ∀ (texd : List α) (acc : List α), x ∈ texd →
      x ∈ texd.foldl appendUnique acc := by
  intro texd
  induction texd with
  | nil => intro acc h; exact absurd h (List.not_mem_nil x)
  | cons d ds ih =>
    intro acc h
    rw [List.foldl_cons]
    rcases List.mem_cons.mp h with h | h
    · subst h
      exact mem_foldl_appendUnique_of_mem ds _ (self_mem_appendUnique acc x)
    · exact ih _ h

theorem foldl_appendUnique_shape {α : Type} [DecidableEq α] :
    ∀ (texd : List α) (acc : List α),
      ∃ t, texd.foldl appendUnique acc = acc ++ t := by
  intro texd
  induction texd with
  | nil => intro acc; exact ⟨[], by simp⟩
  | cons d ds ih =>
    intro acc
    rw [List.foldl_cons]
    by_cases hd : d ∈ acc
    · have hstep : appendUnique acc d = acc := by unfold appendUnique; rw [if_pos hd]
      rw [hstep]
      exact ih acc
    · have hstep : appendUnique acc d = acc ++ [d] := by
        unfold appendUnique; rw [if_neg hd]
      rw [hstep]
      obtain ⟨t, ht⟩ := ih (acc ++ [d])
      exact ⟨[d] ++ t, by rw [ht, List.append_assoc]⟩

/-- Claim C6, counterexample, refuting two parts of the claim.  First, the
explicit supporting directories are never deduplicated among themselves:
passing `/a` twice leaves it twice in the effective list.  Second,
"appended only if not already present" fails across Python types: with the
document in `/a/b` and `TEXDINPUTS=/a//`, `parse_paths` yields the walked
subdirectory as the `str` `"/a/b"` followed by `Path("/a")`; line 256's
`d not in extras_dirs` compares the `str` against the `Path` entries
already present — always unequal — so `"/a/b"` is appended even though
`Path("/a/b")` (the document's own directory) is already in the list, and
the same directory path ends up in the effective collection twice. -/
theorem C6_counterexample :
    effectiveExtras ["/a", "/a"] "/t" []
      = [PyVal.ppath "/t", PyVal.ppath "/a", PyVal.ppath "/a"]
    ∧ ¬ (effectiveExtras ["/a", "/a"] "/t" []).Nodup
    ∧ effectiveExtras [] "/a/b" [PyVal.pstr "/a/b", PyVal.ppath "/a"]
      = [PyVal.ppath "/a/b", PyVal.pstr "/a/b", PyVal.ppath "/a"]
    ∧ (PyVal.pstr "/a/b").str = (PyVal.ppath "/a/b").str
    ∧ ¬ ((effectiveExtras [] "/a/b"
          [PyVal.pstr "/a/b", PyVal.ppath "/a"]).map PyVal.str).Nodup := by
  decide

/-- Claim C6, amended: the effective list keeps the explicit directories
(resolved `Path`s) in order without deduplicating them against each other;
the document's own directory is always a member, inserted first when not
already present; and each `TEXDINPUTS` value is appended exactly when no
`==`-equal value is already in the list — so, given duplicate-free explicit
directories, the list contains no two `==`-equal Python values.  Since
Python's `==` never identifies a walked `str` entry with a `Path` entry,
this deduplication is **not** deduplication of directory paths: a walked
subdirectory may duplicate, as a `str`, a directory already present as a
`Path` (see the counterexample). -/
theorem C6_amended (explicitDirs : List String) (texDir : String)
    (texdinputsDirs : List PyVal) (hnd : explicitDirs.Nodup) :
    (effectiveExtras explicitDirs texDir texdinputsDirs).Nodup
    ∧ PyVal.ppath texDir ∈ effectiveExtras explicitDirs texDir texdinputsDirs
    ∧ (∀ d ∈ texdinputsDirs, d ∈ effectiveExtras explicitDirs texDir texdinputsDirs)
    ∧ (PyVal.ppath texDir ∉ explicitDirs.map PyVal.ppath →
        ∃ t, effectiveExtras explicitDirs texDir texdinputsDirs
          = PyVal.ppath texDir :: (explicitDirs.map PyVal.ppath ++ t))
    ∧ (PyVal.ppath texDir ∈ explicitDirs.map PyVal.ppath →
        ∃ t, effectiveExtras explicitDirs texDir texdinputsDirs
          = explicitDirs.map PyVal.ppath ++ t) := by
  have hndP : (explicitDirs.map PyVal.ppath).Nodup :=
    hnd.map (fun a b hab => by injection hab)
  simp only [effectiveExtras]
  by_cases hmem : PyVal.ppath texDir ∈ explicitDirs.map PyVal.ppath
  · rw [if_pos hmem]
    refine ⟨foldl_appendUnique_nodup _ _ hndP,
      mem_foldl_appendUnique_of_mem _ _ hmem,
      fun d hd => mem_foldl_appendUnique_of_mem_arg _ _ hd,
      fun hc => absurd hmem hc, fun _ => foldl_appendUnique_shape _ _⟩
  · rw [if_neg hmem]
    refine ⟨foldl_appendUnique_nodup _ _ (List.nodup_cons.mpr ⟨hmem, hndP⟩),
      mem_foldl_appendUnique_of_mem _ _ (List.mem_cons_self _ _),
      fun d hd => mem_foldl_appendUnique_of_mem_arg _ _ hd,
      fun _ => ?_, fun hc => absurd hc hmem⟩
    obtain ⟨t, ht⟩ := foldl_appendUnique_shape texdinputsDirs
      (PyVal.ppath texDir :: explicitDirs.map PyVal.ppath)
    exact ⟨t, by rw [ht, List.cons_append]⟩

/-- Witness for C6 (amended): a duplicate-free explicit list with mixed
`TEXDINPUTS` entries — the `Path` `/t` is skipped as already present, while
the `str` `/t` is appended (no `==`-equal value present) — yields a list
with no two `==`-equal values. -/
theorem C6_witness :
    (effectiveExtras ["/a"] "/t"
      [PyVal.ppath "/b", PyVal.ppath "/t", PyVal.pstr "/t"]).Nodup :=
  (C6_amended ["/a"] "/t" [PyVal.ppath "/b", PyVal.ppath "/t", PyVal.pstr "/t"]
    (by decide)).1

/-!
## Path Expander lemmas
-/

theorem foldl_append_eq_bind {α β : Type} (f : α → List β) :
    ∀ (l : List α) (acc : List β),
      l.foldl (fun a x => a ++ f x) acc = acc ++ l.flatMap f := by
  intro l
  induction l with
  | nil => intro acc; simp
  | cons x xs ih =>
    intro acc
    rw [List.foldl_cons, ih, List.flatMap_cons, List.append_assoc]

theorem fragContrib_isdir (fs : FsModel)
    (hwalk : ∀ b r ds d, (r, ds) ∈ fs.walkList b → d ∈ ds →
      fs.isdir (joinPath r d) = true)
    (hres : ∀ p, fs.isdir p = true → fs.isdir (fs.resolve p) = true)
    (p : String) : ∀ q ∈ fragContrib fs p, fs.isdir q = true := by
  intro q hq
  simp only [fragContrib] at hq
  by_cases hdbl : hasDblSlash (fs.expand p).data = true
  · rw [if_pos hdbl] at hq
    by_cases hb : fs.isdir ⟨beforeDblSlash (fs.expand p).data⟩ = true
    · rw [if_pos hb] at hq
      rcases List.mem_append.mp hq with hq | hq
      · rw [foldl_append_eq_bind (fun rd : String × List String => rd.2.map (fun d => joinPath rd.1 d)),
          List.nil_append] at hq
        obtain ⟨rd, hrd, hq⟩ := List.mem_flatMap.mp hq
        obtain ⟨d, hd, rfl⟩ := List.mem_map.mp hq
        exact hwalk _ rd.1 rd.2 d (by rwa [Prod.mk.eta]) hd
      · rw [List.mem_singleton] at hq
        subst hq
        exact hres _ hb
    · rw [if_neg hb] at hq
      exact absurd hq (List.not_mem_nil q)
  · rw [if_neg hdbl] at hq
    by_cases he : fs.isdir (fs.expand p) = true
    · rw [if_pos he] at hq
      rw [List.mem_singleton] at hq
      subst hq
      exact hres _ he
    · rw [if_neg he] at hq
      exact absurd hq (List.not_mem_nil q)

/-- Claim C7, counterexample: on a filesystem whose working directory is
`/abs`, with the relative directory `rel` containing one subdirectory `s`,
the recursive fragment `rel//` yields the walked subdirectory as the
un-resolved, relative path `rel/s` (`os.path.join(root, d)` at line 63 is
never passed through `Path.resolve`), while `Path(p).resolve()` would give
`/abs/rel/s` — so not every returned path is in absolute,
symlink-normalized resolved form. -/
theorem C7_counterexample :
    parse_paths fsCE "rel//" = ["rel/s", "/abs/rel"]
    ∧ ("rel/s" : String) ∈ parse_paths fsCE "rel//"
    ∧ fsCE.resolve "rel/s" ≠ "rel/s"
    ∧ fsCE.resolve "rel/s" = "/abs/rel/s" := by
  decide

/-- Claim C7, amended: assuming `os.walk` only reports existing
directories and `Path.resolve` preserves directory-existence, every path
returned by `parse_paths` is a directory that exists on disk; fragments
whose expansion is not an existing directory (in either the recursive or
the plain branch) are silently dropped, contributing nothing.  Only plain
fragments and the base of recursive fragments are returned in resolved
form; walked subdirectories are returned as joined, possibly relative,
un-resolved paths. -/
theorem C7_amended (fs : FsModel) (pathString : String)
    (hwalk : ∀ b r ds d, (r, ds) ∈ fs.walkList b → d ∈ ds →
      fs.isdir (joinPath r d) = true)
    (hres : ∀ p, fs.isdir p = true → fs.isdir (fs.resolve p) = true) :
    (∀ q ∈ parse_paths fs pathString, fs.isdir q = true)
    ∧ (∀ p : String,
        fs.isdir (⟨beforeDblSlash (fs.expand p).data⟩ : String) = false →
        fs.isdir (fs.expand p) = false → fragContrib fs p = []) := by
  constructor
  · intro q hq
    by_cases hemp : pathString = ""
    · simp only [parse_paths, if_pos hemp] at hq
      exact absurd hq (List.not_mem_nil q)
    · simp only [parse_paths, if_neg hemp] at hq
      rw [foldl_append_eq_bind (fragContrib fs), List.nil_append] at hq
      obtain ⟨p, hp, hq⟩ := List.mem_flatMap.mp hq
      exact fragContrib_isdir fs hwalk hres p q hq
  · intro p h1 h2
    simp only [fragContrib]
    by_cases hdbl : hasDblSlash (fs.expand p).data = true
    · rw [if_pos hdbl, if_neg (by simp [h1])]
    · rw [if_neg hdbl, if_neg (by simp [h2])]

/-- Witness for C7 (amended): on the concrete filesystem `fsCE` the
hypotheses hold, and the returned walked path `rel/s` is indeed an existing
directory. -/
theorem C7_witness : fsCE.isdir "rel/s" = true := by
  have hw : ∀ b r ds d, (r, ds) ∈ fsCE.walkList b → d ∈ ds →
      fsCE.isdir (joinPath r d) = true := by
    intro b r ds d hm hd
    have hm' : (r, ds) ∈ fsCEwalk b := hm
    unfold fsCEwalk at hm'
    split at hm'
    · simp only [List.mem_cons, List.not_mem_nil, or_false, Prod.mk.injEq] at hm'
      rcases hm' with ⟨rfl, rfl⟩ | ⟨rfl, rfl⟩
      · simp only [List.mem_singleton] at hd
        subst hd
        decide
      · exact absurd hd (List.not_mem_nil d)
    · exact absurd hm' (List.not_mem_nil (r, ds))
  have hr : ∀ p, fsCE.isdir p = true → fsCE.isdir (fsCE.resolve p) = true := by
    intro p hp
    have hp' : fsCEisdir p = true := hp
    unfold fsCEisdir at hp'
    simp only [Bool.or_eq_true, beq_iff_eq] at hp'
    rcases hp' with (((rfl | rfl) | rfl) | rfl) <;> decide
  exact (C7_amended fsCE "rel//" hw hr).1 "rel/s" (by decide)

end Latexd
